import Mathlib

set_option maxRecDepth 100000

/-! Verification of the monitoring service of the `vesu-liquidator` bot, a shallow
embedding of `src/vesu-liquidator/src/services/monitoring.rs`.

Machine integers (`u128`, `u64`, Starknet field elements) are modelled as `ℕ`
with explicit bounds and explicit wrapping where the source wraps.  The
double-precision arithmetic used by the proportional-reward computation is
modelled exactly: a finite `f64` value is represented by its rational value
and every operation rounds its exact rational result to 53 significant bits
with round-to-nearest, ties-to-even (the IEEE-754 default).  All values
reaching the floating-point code in this file are positive and far inside the
normal range of `f64` (between `2^-128` and `2^256`), so neither subnormals
nor overflow need to be represented.

Starknet selectors (`get_selector_from_name`) are an injective opaque hash of
the entry-point name; they are passed as explicit `ℕ` parameters
(`liquidationSelector`, `transferSelector`) rather than recomputed.
-/

/-! ## The `U256` struct (monitoring.rs lines 340-360) -/

/-- The `U256` struct of `monitoring.rs`: an unsigned 256-bit value held as two
`u128` limbs.  Limbs are `ℕ` here; `U256.valid` states that each limb fits in
128 bits, as the Rust types guarantee. -/
structure U256 where
  low : ℕ
  high : ℕ
deriving DecidableEq

/-- Both limbs fit in 128 bits (automatic in Rust, an explicit side condition here). -/
def U256.valid (a : U256) : Prop := a.low < 2 ^ 128 ∧ a.high < 2 ^ 128

/-- The number a `U256` denotes: `high * 2^128 + low`. -/
def U256.val (a : U256) : ℕ := a.high * 2 ^ 128 + a.low

/-- `impl std::ops::Sub for U256` (monitoring.rs lines 347-360).
`self.low.overflowing_sub(rhs.low)` wraps modulo `2^128` and reports a borrow;
for in-range operands this is `a.low + 2^128 - b.low` exactly when
`a.low < b.low`.  The high limb uses `saturating_sub`, which on naturals below
`2^128` coincides with truncated subtraction, and subtracts the borrow with a
second `saturating_sub`. -/
def U256.sub (a b : U256) : U256 :=
  if a.low < b.low then
    ⟨a.low + 2 ^ 128 - b.low, a.high - b.high - 1⟩
  else
    ⟨a.low - b.low, a.high - b.high⟩

instance : Sub U256 := ⟨U256.sub⟩

/-! ## Exact model of the `f64` arithmetic used by the reward computation

`liquidate_position` (monitoring.rs lines 297-310) converts the `u256`
earnings and the two `u128` scores to `f64`, computes
`total * (player_score / highest_score)` and casts the result back with
`as u128`.  A finite nonnegative `f64` value is represented below as a
significand/exponent pair denoting `m * 2^e`, and every conversion and
arithmetic operation is the IEEE-754 binary64 one: the exact rational result,
rounded to 53 significant bits with round-to-nearest, ties-to-even.  The
rounding routine `roundF` works on exact integer arithmetic, so the kernel can
evaluate it.  All values reaching the floating-point code of the source are
between `2^-128` and `2^256`, far from both subnormals and overflow, so
neither needs to be represented. -/

/-- A nonnegative finite `f64` value `m * 2^e`.  Results of `roundF` carry a
53-bit significand; inputs need not be normalized (only the denoted value
matters). -/
structure F where
  m : ℕ
  e : ℤ
deriving DecidableEq

/-- Rational value denoted by an `F` (specification only). -/
noncomputable def F.val (x : F) : ℚ := (x.m : ℚ) * (2 : ℚ) ^ x.e

/-- Bit length of a natural number, with explicit fuel so that the kernel can
evaluate it.  `bitlenFuel f n` is correct whenever `n ≤ f`. -/
def bitlenFuel : ℕ → ℕ → ℕ
  | 0, _ => 0
  | f + 1, n => if n = 0 then 0 else bitlenFuel f (n / 2) + 1

/-- Bit length: `bitlen 0 = 0` and `2^(bitlen n - 1) ≤ n < 2^(bitlen n)` for
positive `n`. -/
def bitlen (n : ℕ) : ℕ := bitlenFuel n n

/-- The rounding step shared by every `roundF` call: round the exact value
`(nh / dh) * 2^e` — where `nh / dh` lies in `(2^53, 2^55)` by the caller's
scaling — to 53 significant bits, deciding below-half / tie / above-half from
the exact integer remainders. -/
def roundCore (nh dh : ℕ) (e : ℤ) : F :=
  let q := nh / dh
  let r := nh % dh
  let s := bitlen q - 53
  let keep := q / 2 ^ s
  let drop := q % 2 ^ s
  let lhs := 2 * (drop * dh + r)
  let rhs := 2 ^ s * dh
  let sig := if lhs < rhs then keep
             else if rhs < lhs then keep + 1
             else if keep % 2 = 0 then keep else keep + 1
  ⟨sig, e + s⟩

/-- Round the exact rational `(num / den) * 2^e` to the nearest `f64`
(round-to-nearest, ties-to-even), entirely in integer arithmetic: scale so the
quotient carries two guard bits, then round with `roundCore`.  This is the
exact IEEE-754 rounding for every positive rational.  `den = 0` or `num = 0`
never carry information in the source (`highest_score == 0` is filtered
before any division) and map to zero. -/
def roundF (num den : ℕ) (e : ℤ) : F :=
  if num = 0 ∨ den = 0 then ⟨0, 0⟩
  else
    let k : ℤ := 54 + (bitlen den : ℤ) - (bitlen num : ℤ)
    roundCore (num * 2 ^ k.toNat) (den * 2 ^ (-k).toNat) (e - k)

/-- Rust's `as f64` on a `u128`: round the integer to the nearest double. -/
def natToF (n : ℕ) : F := roundF n 1 0

/-- `f64` addition: exact sum, then one rounding. -/
def addF (x y : F) : F :=
  let c := min x.e y.e
  roundF (x.m * 2 ^ (x.e - c).toNat + y.m * 2 ^ (y.e - c).toNat) 1 c

/-- `f64` multiplication: exact product, then one rounding. -/
def mulF (x y : F) : F := roundF (x.m * y.m) 1 (x.e + y.e)

/-- `f64` division: exact quotient, then one rounding. -/
def divF (x y : F) : F := roundF x.m y.m (x.e - y.e)

/-- `2.0_f64.powi(128)`: exactly `2^128` (squaring a power of two never
rounds). -/
def two128F : F := ⟨1, 128⟩

/-- Rust's `as u128` cast on a finite nonnegative `f64`: truncate toward zero
and saturate to the `u128` range. -/
def f64toU128 (x : F) : ℕ :=
  let t := if 0 ≤ x.e then x.m * 2 ^ x.e.toNat else x.m / 2 ^ (-x.e).toNat
  min t (2 ^ 128 - 1)

/-! ## Event extraction (`parse_liquidation_event`, monitoring.rs lines 371-387) -/

/-- A Starknet event from a transaction receipt: emitting contract address,
keys and data, all field elements (modelled as `ℕ`). -/
structure REvent where
  from_address : ℕ
  keys : List ℕ
  data : List ℕ
deriving DecidableEq

/-- `FieldElement::try_into::<u128>`: succeeds exactly when the field element
fits in 128 bits. -/
def feltToU128 (x : ℕ) : Option ℕ :=
  if x < 2 ^ 128 then some x else none

/-- The match condition of the event scan (line 375): emitted by the liquidate
contract, nonempty key list, and first key equal to the `Liquidation` selector. -/
def eventMatches (liquidationSelector contract_address : ℕ) (e : REvent) : Bool :=
  e.from_address == contract_address && !e.keys.isEmpty && e.keys.headD 0 == liquidationSelector

/-- `parse_liquidation_event` (monitoring.rs lines 371-387).  Scans the events
in order; an event matching address and selector is decoded only when it has at
least three data elements — a short matching event lets the loop continue to
later events.  A `try_into` failure on a data limb hits the `?` operator and
returns `None` from the whole function. -/
def parse_liquidation_event (liquidationSelector contract_address : ℕ) :
    List REvent → Option (ℕ × U256)
  | [] => none
  | e :: rest =>
    if eventMatches liquidationSelector contract_address e then
      if 3 ≤ e.data.length then
        match feltToU128 (e.data.getD 1 0), feltToU128 (e.data.getD 2 0) with
        | some amount_low, some amount_high =>
            some (e.data.getD 0 0, ⟨amount_low, amount_high⟩)
        | _, _ => none
      else parse_liquidation_event liquidationSelector contract_address rest
    else parse_liquidation_event liquidationSelector contract_address rest

/-! ## Reward distribution (`liquidate_position`, monitoring.rs lines 275-330) -/

/-- A `Redeem` record from the Torii GraphQL queue (monitoring.rs lines 26-30).
The source holds the player as the hex string of an address and parses it with
`FieldElement::from_hex_be`; the parsed field element is used here. -/
structure RedeemModel where
  player : ℕ
  score : ℕ
deriving DecidableEq

/-- The reference score used as denominator:
`self.get_highest_score().await?.unwrap_or(redeemer.score)` (line 281). -/
def referenceScore (highestOpt : Option ℕ) (playerScore : ℕ) : ℕ :=
  highestOpt.getD playerScore

/-- A Starknet `FunctionCall` (contract address, entry-point selector, calldata). -/
structure Call where
  contract_address : ℕ
  entry_point_selector : ℕ
  calldata : List ℕ
deriving DecidableEq

/-- `build_erc20_transfer_call` (monitoring.rs lines 252-258): a `transfer`
call whose calldata is `[recipient, amount_low, amount_high]`. -/
def build_erc20_transfer_call (transferSelector token_address recipient : ℕ)
    (amount : U256) : Call :=
  ⟨token_address, transferSelector, [recipient, amount.low, amount.high]⟩

/-- The share computation of `liquidate_position` (monitoring.rs lines 297-311):
`total_earnings_f64 = (low as f64) + (high as f64) * 2.0f64.powi(128)`
(`2.0.powi(128)` is exactly `2^128`: squaring powers of two is exact),
`player_share_f64 = total_earnings_f64 * (player_score_f64 / highest_score_f64)`,
`player_share = U256 { low: player_share_f64 as u128, high: 0 }`, and
`world_share = total_earnings - player_share` with the saturating-style `Sub`. -/
def compute_shares (total_earnings : U256) (player_score highest_score : ℕ) :
    U256 × U256 :=
  let total_earnings_f64 :=
    addF (natToF total_earnings.low) (mulF (natToF total_earnings.high) two128F)
  let proportion := divF (natToF player_score) (natToF highest_score)
  let player_share_f64 := mulF total_earnings_f64 proportion
  let player_share_u128 := f64toU128 player_share_f64
  let player_share : U256 := ⟨player_share_u128, 0⟩
  let world_share := total_earnings - player_share
  (player_share, world_share)

/-- The distribution phase of `liquidate_position` (monitoring.rs lines 278-330),
given the outcome of the two external Torii queries and the confirmed receipt's
events.  Returns the list of transactions submitted in this phase (each a
multicall, i.e. a list of calls) together with the computed
`(player_share, world_share)` when the computation is reached.  The source
returns `Ok(())` on every path shown here: no claimant, a zero reference score
and a missing or undecodable event all skip distribution without an error. -/
def liquidate_position_distribution
    (liquidationSelector transferSelector world_address contract_address : ℕ)
    (events : List REvent) (redeemer : Option RedeemModel) (highestOpt : Option ℕ) :
    List (List Call) × Option (U256 × U256) :=
  match redeemer with
  | none => ([], none)
  | some r =>
    let highest_score := referenceScore highestOpt r.score
    if highest_score = 0 then ([], none)
    else
      match parse_liquidation_event liquidationSelector contract_address events with
      | none => ([], none)
      | some (collateral_token_address, total_earnings) =>
        let shares := compute_shares total_earnings r.score highest_score
        let player_transfer_call :=
          build_erc20_transfer_call transferSelector collateral_token_address r.player shares.1
        let world_transfer_call :=
          build_erc20_transfer_call transferSelector collateral_token_address world_address shares.2
        ([[player_transfer_call, world_transfer_call]], some shares)

/-! ## The position store and the monitoring loop
(`run_forever` lines 95-128 and `monitor_positions_liquidability` lines 131-177)

`Position` and `PositionsMap` live in `types/position.rs`, outside the
monitoring module; only the fields the monitoring loop reads are modelled.
The loop's external effects (`is_liquidable` against the oracle prices,
`liquidate_position`'s on-chain execution, `Position::update` against the RPC
client) are supplied as functions of the position, each returning `Except`
with the error message as a `String`, matching `anyhow::Result`. -/

/-- Modelled from the spec: `Position` (`types/position.rs`, not part of the
monitoring module) — a borrower's account state with a stable `u64` key;
`is_closed` reports whether the debt is fully repaid.  Collateral/debt
composition and health metrics never influence the monitoring control flow
directly (they are read through `is_liquidable` and `update`, which are
supplied as oracles), so only the key and the closed flag appear. -/
structure Position where
  key : ℕ
  is_closed : Bool
deriving DecidableEq

/-- The `PositionsMap` (a `DashMap<u64, Position>`), modelled as an
association list with distinct keys. -/
abbrev Store : Type := List (ℕ × Position)

/-- `self.positions.0.get(&key)`-style lookup. -/
def store_lookup : Store → ℕ → Option Position
  | [], _ => none
  | (k', p) :: rest, k => if k' = k then some p else store_lookup rest k

/-- `self.positions.0.insert(key, position)`: replace the entry if the key is
present, append otherwise. -/
def store_insert : Store → ℕ → Position → Store
  | [], k, p => [(k, p)]
  | (k', p') :: rest, k, p =>
    if k' = k then (k, p) :: rest else (k', p') :: store_insert rest k p

/-- `self.positions.0.remove(&key)`. -/
def store_remove : Store → ℕ → Store
  | [], _ => []
  | (k', p) :: rest, k =>
    if k' = k then store_remove rest k else (k', p) :: store_remove rest k

/-- The keys snapshot taken at the top of the sweep (line 136). -/
def store_keys (s : Store) : List ℕ := s.map Prod.fst

/-- Whether one character list occurs inside another, written out so the
kernel can evaluate it. -/
def charsPrefixOf : List Char → List Char → Bool
  | [], _ => true
  | _ :: _, [] => false
  | a :: as, b :: bs => a == b && charsPrefixOf as bs

/-- Substring test on character lists. -/
def charsInside (pat : List Char) : List Char → Bool
  | [] => charsPrefixOf pat []
  | c :: rest => charsPrefixOf pat (c :: rest) || charsInside pat rest

/-- `e.to_string().contains("not-undercollateralized")` (line 153). -/
def containsMarker (msg : String) : Bool :=
  charsInside "not-undercollateralized".data msg.data

/-- The external effects of one sweep, as functions of the position:
`is_liquidable` (may fail on missing price data — the `?` aborts the sweep),
`liquidate_position` (its error message is classified by `containsMarker`),
and `Position::update` (the `?` on line 168 aborts the sweep). -/
structure SweepEnv where
  is_liquidable : Position → Except String Bool
  liquidate : Position → Except String Unit
  update : Position → Except String Position

/-- Observable actions of a sweep, recorded in order: a liquidation attempt on
a key, a benign "not under-collateralized" failure of that attempt, and a
post-attempt refresh (`position.update`, lines 166-168). -/
inductive SweepEv where
  | attempt (k : ℕ)
  | attemptFailedMarker (k : ℕ)
  | refresh (k : ℕ)
deriving DecidableEq

/-- The `for key in position_keys` loop of `monitor_positions_liquidability`
(lines 139-170), carrying the store, the `positions_to_delete` accumulator and
the event trace.  A liquidation failure whose message contains the marker
pushes the key for deletion and `continue`s — skipping the refresh; any other
attempt outcome falls through to `position.update`, whose result replaces the
entry in place (`entry.value_mut()`). -/
def monitor_positions_loop (env : SweepEnv) :
    List ℕ → Store → List ℕ → List SweepEv →
    Except String (Store × List ℕ × List SweepEv)
  | [], s, dels, tr => .ok (s, dels, tr)
  | k :: ks, s, dels, tr =>
    match store_lookup s k with
    | none => monitor_positions_loop env ks s dels tr
    | some p =>
      match env.is_liquidable p with
      | .error e => .error e
      | .ok false => monitor_positions_loop env ks s dels tr
      | .ok true =>
        match env.liquidate p with
        | .error e =>
          if containsMarker e then
            monitor_positions_loop env ks s (dels ++ [k])
              (tr ++ [SweepEv.attempt k, SweepEv.attemptFailedMarker k])
          else
            match env.update p with
            | .error e2 => .error e2
            | .ok p2 =>
              monitor_positions_loop env ks (store_insert s k p2) dels
                (tr ++ [SweepEv.attempt k, SweepEv.refresh k])
        | .ok _ =>
          match env.update p with
          | .error e2 => .error e2
          | .ok p2 =>
            monitor_positions_loop env ks (store_insert s k p2) dels
              (tr ++ [SweepEv.attempt k, SweepEv.refresh k])

/-- `monitor_positions_liquidability` (lines 131-177): early `Ok` on an empty
store; otherwise run the key loop over a snapshot of the keys, then apply the
queued deletions.  Returns the final store and the event trace. -/
def monitor_positions_liquidability (env : SweepEnv) (s : Store) :
    Except String (Store × List SweepEv) :=
  if s.isEmpty then .ok (s, [])
  else
    match monitor_positions_loop env (store_keys s) s [] [] with
    | .error e => .error e
    | .ok (s', dels, tr) => .ok (dels.foldl store_remove s', tr)

/-- The update-channel branch of `run_forever` (lines 108-125): the received
position is refreshed (`new_position.update`, the `?` propagates failure), a
position reporting closed is discarded, otherwise it is upserted under its
key.  The subsequent `storage.save` call is external and does not change the
store. -/
def channel_update_cycle (update : Position → Except String Position)
    (s : Store) (incoming : Position) : Except String Store :=
  match update incoming with
  | .error e => .error e
  | .ok new_position =>
    if new_position.is_closed then .ok s
    else .ok (store_insert s new_position.key new_position)

/-- The shape every completed sweep's trace has: a sequence of attempt blocks,
each either `attempt k` immediately followed by `refresh k`, or `attempt k`
immediately followed by the benign marker failure (in which case no refresh
happens for that attempt). -/
inductive AttemptBlocks : List SweepEv → Prop
  | nil : AttemptBlocks []
  | refreshed (k : ℕ) (t : List SweepEv) :
      AttemptBlocks t → AttemptBlocks (SweepEv.attempt k :: SweepEv.refresh k :: t)
  | marker (k : ℕ) (t : List SweepEv) :
      AttemptBlocks t → AttemptBlocks (SweepEv.attempt k :: SweepEv.attemptFailedMarker k :: t)

/-- Number of liquidation attempts on key `k` in a trace. -/
def attemptCount (k : ℕ) (tr : List SweepEv) : ℕ :=
  tr.countP (fun ev => ev = SweepEv.attempt k)

/-- A concrete sweep environment in which every position is liquidable, every
liquidation succeeds, and the post-liquidation refresh reports the position
closed (the debt was fully repaid by the liquidation). -/
def envClosing : SweepEnv :=
  ⟨fun _ => .ok true, fun _ => .ok (), fun p => .ok ⟨p.key, true⟩⟩

/-- A concrete sweep environment in which every position is liquidable and
every liquidation attempt fails with the benign
"not-undercollateralized" message. -/
def envMarker : SweepEnv :=
  ⟨fun _ => .ok true, fun _ => .error "not-undercollateralized", fun p => .ok p⟩

/-! ## Lemmas and claim theorems -/

theorem U256.sub_def (a b : U256) : a - b = U256.sub a b := rfl

/-- C3: for every pair of `U256` values `a` and `b` with `a ≥ b` (interpreting
each as `high * 2^128 + low`), the subtraction `a - b` yields exactly the
mathematical difference `a - b`. -/
theorem sub_exact_when_no_underflow (a b : U256) (ha : a.valid) (hb : b.valid)
    (h : b.val ≤ a.val) : (a - b).val = a.val - b.val := by
  obtain ⟨al, ah⟩ := a
  obtain ⟨bl, bh⟩ := b
  obtain ⟨ha1, ha2⟩ := ha
  obtain ⟨hb1, hb2⟩ := hb
  rw [U256.sub_def]
  unfold U256.sub U256.val at *
  dsimp only at *
  split <;> dsimp only <;> omega

/-- C3 witness: the subtraction theorem applied to a concrete borrowing pair:
`(5, 7) - (max, 2)` with a borrow from the high limb. -/
theorem sub_exact_when_no_underflow_witness :
    (U256.mk 5 7 - U256.mk (2 ^ 128 - 1) 2).val =
      (U256.mk 5 7).val - (U256.mk (2 ^ 128 - 1) 2).val :=
  sub_exact_when_no_underflow ⟨5, 7⟩ ⟨2 ^ 128 - 1, 2⟩
    (by constructor <;> norm_num) (by constructor <;> norm_num)
    (by unfold U256.val; norm_num)

/-- C2 counterexample: `0 - 1` does not saturate to zero — the low limb wraps
to `2^128 - 1` (only the high limb is computed with `saturating_sub`). -/
theorem sub_not_saturating_counterexample :
    (U256.mk 0 0).val < (U256.mk 1 0).val ∧
    U256.mk 0 0 - U256.mk 1 0 ≠ U256.mk 0 0 ∧
    (U256.mk 0 0 - U256.mk 1 0).low = 2 ^ 128 - 1 := by decide

/-- C2 amended: for every pair of `U256` values `a < b`, the subtraction's
high limb saturates to `0` (it never wraps past zero), but the low limb wraps
modulo `2^128` to `(a.low - b.low) mod 2^128`; the result is zero only when
the low limbs happen to coincide, not in general. -/
theorem sub_underflow_high_saturates (a b : U256) (ha : a.valid) (hb : b.valid)
    (h : a.val < b.val) :
    (a - b).high = 0 ∧ (a - b).low = (a.low + 2 ^ 128 - b.low) % 2 ^ 128 := by
  obtain ⟨al, ah⟩ := a
  obtain ⟨bl, bh⟩ := b
  obtain ⟨ha1, ha2⟩ := ha
  obtain ⟨hb1, hb2⟩ := hb
  rw [U256.sub_def]
  unfold U256.sub U256.val at *
  dsimp only at *
  split <;> dsimp only <;> constructor <;> omega

/-- C2 witness: the amended subtraction theorem applied at `(3, 5) - (4, 7)`. -/
theorem sub_underflow_high_saturates_witness :
    (U256.mk 3 5 - U256.mk 4 7).high = 0 ∧
    (U256.mk 3 5 - U256.mk 4 7).low = (3 + 2 ^ 128 - 4) % 2 ^ 128 :=
  sub_underflow_high_saturates ⟨3, 5⟩ ⟨4, 7⟩
    (by constructor <;> norm_num) (by constructor <;> norm_num)
    (by unfold U256.val; norm_num)

/-- C9: if the reference score obtained for a distribution equals `0`, the
distribution is skipped (the source returns `Ok(())` after a warning): no
transfer transaction is submitted and no shares are computed. -/
theorem zero_reference_skips_distribution
    (liquidationSelector transferSelector world_address contract_address : ℕ)
    (events : List REvent) (r : RedeemModel) (highestOpt : Option ℕ)
    (h : referenceScore highestOpt r.score = 0) :
    liquidate_position_distribution liquidationSelector transferSelector world_address
      contract_address events (some r) highestOpt = ([], none) := by
  simp [liquidate_position_distribution, h]

/-- C9 witness: the zero-reference theorem at a concrete claimant with the
reference-score query returning `0`. -/
theorem zero_reference_skips_distribution_witness :
    liquidate_position_distribution 101 102 7 3 [] (some ⟨5, 40⟩) (some 0) = ([], none) :=
  zero_reference_skips_distribution 101 102 7 3 [] ⟨5, 40⟩ (some 0) rfl

/-- C10: for every total proceeds amount, claimant score and nonzero reference
score, the claimant's share always has high limb `0` and its low limb below
`2^128` (the claimant is never sent `2^128` or more), and the fallback sink's
amount is the total minus that low-limb-only share under the `U256`
subtraction. -/
theorem player_share_high_always_zero (total_earnings : U256) (player_score highest_score : ℕ)
    (h : 1 ≤ highest_score) :
    (compute_shares total_earnings player_score highest_score).1.high = 0 ∧
    (compute_shares total_earnings player_score highest_score).1.low < 2 ^ 128 ∧
    (compute_shares total_earnings player_score highest_score).2 =
      total_earnings - (compute_shares total_earnings player_score highest_score).1 := by
  refine ⟨rfl, ?_, rfl⟩
  show min _ (2 ^ 128 - 1) < 2 ^ 128
  exact lt_of_le_of_lt (min_le_right _ _) (by norm_num)

/-- C10 witness: the share-shape theorem at the concrete distribution inputs. -/
theorem player_share_high_always_zero_witness :
    (compute_shares ⟨1000, 0⟩ 40 100).1.high = 0 ∧
    (compute_shares ⟨1000, 0⟩ 40 100).1.low < 2 ^ 128 ∧
    (compute_shares ⟨1000, 0⟩ 40 100).2 =
      U256.mk 1000 0 - (compute_shares ⟨1000, 0⟩ 40 100).1 :=
  player_share_high_always_zero ⟨1000, 0⟩ 40 100 (by norm_num)

/-- C6: for a confirmed receipt whose matching `Liquidation` event carries
amount `(low = 1000, high = 0)`, a claimant score of `40` and a reference
score of `100`, the distributor computes share `400` and remainder `600`, and
submits exactly one transaction with two transfer calls, the claimant's first
and the fallback sink's second. -/
theorem distribution_concrete_split :
    liquidate_position_distribution 101 102 7 3 [⟨3, [101], [9, 1000, 0]⟩]
      (some ⟨5, 40⟩) (some 100) =
    ([[⟨9, 102, [5, 400, 0]⟩, ⟨9, 102, [7, 600, 0]⟩]],
      some (⟨400, 0⟩, ⟨600, 0⟩)) := by decide

/-- C7 counterexample: a short matching event does not make extraction return
`None` — the scan continues and decodes a later matching event. -/
theorem parse_skips_short_match_counterexample :
    eventMatches 101 3 ⟨3, [101], []⟩ = true ∧
    (REvent.mk 3 [101] []).data.length < 3 ∧
    parse_liquidation_event 101 3 [⟨3, [101], []⟩, ⟨3, [101], [9, 5, 0]⟩] =
      some (9, ⟨5, 0⟩) := by decide

/-- C7 amended: event extraction decodes the first event that matches the
contract address and the `Liquidation` selector AND has at least three data
elements; a short matching event is skipped rather than ending the search.
Extraction returns `None` when every event either fails the address/selector
match or has a short payload — in particular when no event matches at all,
however many other events are present. -/
theorem parse_none_of_no_decodable_match
    (liquidationSelector contract_address : ℕ) (events : List REvent)
    (h : ∀ e ∈ events, eventMatches liquidationSelector contract_address e = false ∨
        e.data.length < 3) :
    parse_liquidation_event liquidationSelector contract_address events = none := by
  induction events with
  | nil => rfl
  | cons e rest ih =>
    have he := h e (by simp)
    rw [parse_liquidation_event]
    rcases he with hm | hlen
    · rw [hm]
      exact ih fun e' he' => h e' (by simp [he'])
    · split
      · rw [if_neg (by omega)]
        exact ih fun e' he' => h e' (by simp [he'])
      · exact ih fun e' he' => h e' (by simp [he'])

/-- C7 witness: extraction returns `None` on a receipt whose events come from
another contract. -/
theorem parse_none_of_no_decodable_match_witness :
    parse_liquidation_event 101 3 [⟨4, [101], [9, 5, 0]⟩, ⟨3, [44], [9, 5, 0]⟩] = none :=
  parse_none_of_no_decodable_match 101 3 [⟨4, [101], [9, 5, 0]⟩, ⟨3, [44], [9, 5, 0]⟩]
    (by decide)

theorem mem_store_insert (s : Store) (k : ℕ) (p : Position) (kp : ℕ × Position)
    (h : kp ∈ store_insert s k p) : kp ∈ s ∨ kp = (k, p) := by
  induction s with
  | nil => simpa [store_insert] using h
  | cons hd tl ih =>
    obtain ⟨k', p'⟩ := hd
    unfold store_insert at h
    split at h
    · rcases List.mem_cons.mp h with h1 | h1
      · exact Or.inr h1
      · exact Or.inl (List.mem_cons_of_mem _ h1)
    · rcases List.mem_cons.mp h with h1 | h1
      · exact Or.inl (h1 ▸ List.mem_cons_self _ _)
      · rcases ih h1 with h2 | h2
        · exact Or.inl (List.mem_cons_of_mem _ h2)
        · exact Or.inr h2

/-- C4 counterexample: an evaluation sweep can leave a closed position in the
store.  One open position is liquidated successfully; the post-liquidation
refresh reports it closed, and the sweep keeps the refreshed (closed) entry. -/
theorem sweep_retains_closed_counterexample :
    monitor_positions_liquidability envClosing [(1, ⟨1, false⟩)] =
      .ok ([(1, ⟨1, true⟩)], [SweepEv.attempt 1, SweepEv.refresh 1]) ∧
    (Position.mk 1 true).is_closed = true := ⟨rfl, rfl⟩

/-- C4 amended: the update-channel cycle never inserts a closed position — a
refreshed position reporting closed is discarded — so a store free of closed
positions stays free of them across any completed channel cycle.  (An
evaluation sweep, by contrast, may retain a position that its post-liquidation
refresh reports closed.) -/
theorem channel_cycle_preserves_no_closed
    (update : Position → Except String Position) (s : Store) (incoming : Position)
    (s' : Store) (hinv : ∀ kp ∈ s, kp.2.is_closed = false)
    (hok : channel_update_cycle update s incoming = .ok s') :
    ∀ kp ∈ s', kp.2.is_closed = false := by
  unfold channel_update_cycle at hok
  split at hok
  · cases hok
  · split at hok
    · cases hok
      exact hinv
    · next new_position _ hc =>
      cases hok
      intro kp hkp
      rcases mem_store_insert _ _ _ _ hkp with h1 | h1
      · exact hinv kp h1
      · rw [h1]
        exact Bool.eq_false_iff.mpr hc

/-- C4 witness: the channel-cycle preservation theorem at a concrete cycle
inserting one open position into an empty store. -/
theorem channel_cycle_preserves_no_closed_witness :
    channel_update_cycle (fun p => .ok p) [] ⟨1, false⟩ = .ok [(1, ⟨1, false⟩)] ∧
    ((1, Position.mk 1 false)).2.is_closed = false :=
  ⟨rfl, channel_cycle_preserves_no_closed (fun p => .ok p) [] ⟨1, false⟩ _
    (by intro kp hkp; cases hkp) rfl (1, ⟨1, false⟩) (by simp [store_insert])⟩

theorem loop_trace_blocks (env : SweepEnv) (ks : List ℕ) :
    ∀ s dels tr s' dels' tr',
      monitor_positions_loop env ks s dels tr = .ok (s', dels', tr') →
      ∃ t, tr' = tr ++ t ∧ AttemptBlocks t := by
  induction ks with
  | nil =>
    intro s dels tr s' dels' tr' h
    cases h
    exact ⟨[], by simp, AttemptBlocks.nil⟩
  | cons k ks ih =>
    intro s dels tr s' dels' tr' h
    rw [monitor_positions_loop] at h
    split at h
    · exact ih _ _ _ _ _ _ h
    · split at h
      · cases h
      · exact ih _ _ _ _ _ _ h
      · split at h
        · split at h
          · obtain ⟨t, ht, hb⟩ := ih _ _ _ _ _ _ h
            exact ⟨SweepEv.attempt k :: SweepEv.attemptFailedMarker k :: t,
              by rw [ht]; simp, AttemptBlocks.marker k t hb⟩
          · split at h
            · cases h
            · obtain ⟨t, ht, hb⟩ := ih _ _ _ _ _ _ h
              exact ⟨SweepEv.attempt k :: SweepEv.refresh k :: t,
                by rw [ht]; simp, AttemptBlocks.refreshed k t hb⟩
        · split at h
          · cases h
          · obtain ⟨t, ht, hb⟩ := ih _ _ _ _ _ _ h
            exact ⟨SweepEv.attempt k :: SweepEv.refresh k :: t,
              by rw [ht]; simp, AttemptBlocks.refreshed k t hb⟩

/-- C5 amended: in every completed evaluation sweep, each liquidation attempt
is immediately followed by the position's refresh EXCEPT an attempt failing
with the "not-undercollateralized" marker, whose `continue` skips the refresh
(the position is scheduled for removal instead).  The trace of a completed
sweep is a sequence of such two-event blocks. -/
theorem sweep_trace_attempt_blocks (env : SweepEnv) (s s' : Store) (tr : List SweepEv)
    (hok : monitor_positions_liquidability env s = .ok (s', tr)) : AttemptBlocks tr := by
  unfold monitor_positions_liquidability at hok
  split at hok
  · cases hok
    exact AttemptBlocks.nil
  · split at hok
    · cases hok
    · next s'' dels tr'' hrun =>
      cases hok
      obtain ⟨t, ht, hb⟩ := loop_trace_blocks env (store_keys s) _ _ _ _ _ _ hrun
      rwa [ht, List.nil_append]

/-- C5 witness: the trace-shape theorem applied to a concrete completed sweep
(one successfully liquidated position, refreshed after the attempt). -/
theorem sweep_trace_attempt_blocks_witness :
    AttemptBlocks [SweepEv.attempt 1, SweepEv.refresh 1] :=
  sweep_trace_attempt_blocks envClosing [(1, ⟨1, false⟩)] [(1, ⟨1, true⟩)]
    [SweepEv.attempt 1, SweepEv.refresh 1] rfl

/-- C5 counterexample: an attempt that fails with the
"not-undercollateralized" marker is NOT followed by a refresh — the completed
sweep's trace contains the attempt but no refresh event at all. -/
theorem marker_failure_skips_refresh_counterexample :
    monitor_positions_liquidability envMarker [(1, ⟨1, false⟩)] =
      .ok ([], [SweepEv.attempt 1, SweepEv.attemptFailedMarker 1]) ∧
    SweepEv.refresh 1 ∉ [SweepEv.attempt 1, SweepEv.attemptFailedMarker 1] :=
  ⟨rfl, by decide⟩

theorem store_lookup_remove_self (s : Store) (k : ℕ) :
    store_lookup (store_remove s k) k = none := by
  induction s with
  | nil => rfl
  | cons hd tl ih =>
    obtain ⟨k', p⟩ := hd
    simp only [store_remove]
    split
    · exact ih
    · next hne =>
      simp only [store_lookup]
      rw [if_neg hne]
      exact ih

theorem store_lookup_remove_none (s : Store) (j k : ℕ) (h : store_lookup s k = none) :
    store_lookup (store_remove s j) k = none := by
  induction s with
  | nil => rfl
  | cons hd tl ih =>
    obtain ⟨k', p⟩ := hd
    unfold store_lookup at h
    split at h
    · cases h
    · next hne =>
      simp only [store_remove]
      split
      · exact ih h
      · simp only [store_lookup]
        rw [if_neg hne]
        exact ih h

theorem store_lookup_foldl_remove_none (dels : List ℕ) :
    ∀ s k, store_lookup s k = none →
      store_lookup (dels.foldl store_remove s) k = none := by
  induction dels with
  | nil => intro s k h; exact h
  | cons d rest ih =>
    intro s k h
    exact ih _ _ (store_lookup_remove_none s d k h)

theorem store_lookup_foldl_remove_mem (dels : List ℕ) :
    ∀ s k, k ∈ dels → store_lookup (dels.foldl store_remove s) k = none := by
  induction dels with
  | nil => intro s k h; cases h
  | cons d rest ih =>
    intro s k h
    by_cases hk : k ∈ rest
    · exact ih _ _ hk
    · have hkd : k = d := by
        rcases List.mem_cons.mp h with h1 | h1
        · exact h1
        · exact absurd h1 hk
      subst hkd
      exact store_lookup_foldl_remove_none rest _ _ (store_lookup_remove_self s k)

theorem store_lookup_insert_ne (s : Store) (k0 k : ℕ) (p : Position) (h : k0 ≠ k) :
    store_lookup (store_insert s k0 p) k = store_lookup s k := by
  induction s with
  | nil => simp [store_insert, store_lookup, h]
  | cons hd tl ih =>
    obtain ⟨k', p'⟩ := hd
    simp only [store_insert]
    split
    · next heq =>
      simp only [store_lookup]
      rw [if_neg h, if_neg (heq ▸ h)]
    · simp only [store_lookup]
      split
      · rfl
      · exact ih

theorem not_mem_keys_of_lookup_none (s : Store) (k : ℕ)
    (h : store_lookup s k = none) : k ∉ store_keys s := by
  induction s with
  | nil => simp [store_keys]
  | cons hd tl ih =>
    obtain ⟨k', p⟩ := hd
    unfold store_lookup at h
    split at h
    · cases h
    · next hne =>
      simp only [store_keys, List.map_cons, List.mem_cons]
      rintro (h1 | h1)
      · exact hne h1.symm
      · exact ih h h1

theorem loop_facts (env : SweepEnv) (k : ℕ) (ks : List ℕ) :
    ∀ s dels tr s' dels' tr',
      monitor_positions_loop env ks s dels tr = .ok (s', dels', tr') →
      (∀ j, j ∈ dels → j ∈ dels') ∧
      (SweepEv.attemptFailedMarker k ∈ tr' →
        SweepEv.attemptFailedMarker k ∈ tr ∨ k ∈ dels') ∧
      (SweepEv.attempt k ∈ tr' → SweepEv.attempt k ∈ tr ∨ k ∈ ks) ∧
      (k ∉ ks → store_lookup s k = none → store_lookup s' k = none) ∧
      (attemptCount k tr' ≤ attemptCount k tr + ks.count k) := by
  induction ks with
  | nil =>
    intro s dels tr s' dels' tr' h
    cases h
    exact ⟨fun j hj => hj, fun hm => Or.inl hm, fun ha => Or.inl ha,
      fun _ hn => hn, by simp⟩
  | cons k0 ks ih =>
    intro s dels tr s' dels' tr' h
    rw [monitor_positions_loop] at h
    split at h
    · obtain ⟨h1, h2, h3, h4, h5⟩ := ih _ _ _ _ _ _ h
      refine ⟨h1, h2, fun ha => ?_, fun hk hn => h4 (fun hz => hk (List.mem_cons_of_mem _ hz)) hn, ?_⟩
      · rcases h3 ha with hx | hx
        · exact Or.inl hx
        · exact Or.inr (List.mem_cons_of_mem _ hx)
      · refine le_trans h5 ?_
        have : ks.count k ≤ (k0 :: ks).count k := by
          rw [List.count_cons]
          omega
        omega
    · split at h
      · cases h
      · obtain ⟨h1, h2, h3, h4, h5⟩ := ih _ _ _ _ _ _ h
        refine ⟨h1, h2, fun ha => ?_, fun hk hn => h4 (fun hz => hk (List.mem_cons_of_mem _ hz)) hn, ?_⟩
        · rcases h3 ha with hx | hx
          · exact Or.inl hx
          · exact Or.inr (List.mem_cons_of_mem _ hx)
        · refine le_trans h5 ?_
          have : ks.count k ≤ (k0 :: ks).count k := by
            rw [List.count_cons]
            omega
          omega
      · split at h
        · split at h
          · -- marker failure on k0: dels grows, trace gains [attempt k0, marker k0]
            obtain ⟨h1, h2, h3, h4, h5⟩ := ih _ _ _ _ _ _ h
            refine ⟨fun j hj => h1 j (by simp [hj]), fun hm => ?_, fun ha => ?_,
              fun hk hn => h4 (fun hz => hk (List.mem_cons_of_mem _ hz)) hn, ?_⟩
            · rcases h2 hm with hx | hx
              · rcases List.mem_append.mp hx with hy | hy
                · exact Or.inl hy
                · have hks : k = k0 := by
                    rcases List.mem_cons.mp hy with hz | hz
                    · cases hz
                    · rcases List.mem_cons.mp hz with hw | hw
                      · exact (SweepEv.attemptFailedMarker.injEq _ _).mp hw
                      · cases hw
                  exact Or.inr (h1 k (by simp [hks]))
              · exact Or.inr hx
            · rcases h3 ha with hx | hx
              · rcases List.mem_append.mp hx with hy | hy
                · exact Or.inl hy
                · have hks : k = k0 := by
                    rcases List.mem_cons.mp hy with hz | hz
                    · exact (SweepEv.attempt.injEq _ _).mp hz
                    · rcases List.mem_cons.mp hz with hw | hw
                      · cases hw
                      · cases hw
                  exact Or.inr (by simp [hks])
              · exact Or.inr (List.mem_cons_of_mem _ hx)
            · refine le_trans h5 ?_
              have hcnt : attemptCount k (tr ++ [SweepEv.attempt k0, SweepEv.attemptFailedMarker k0]) =
                  attemptCount k tr + (if k0 = k then 1 else 0) := by
                unfold attemptCount
                rw [List.countP_append]
                by_cases hk : k0 = k <;> simp [List.countP_cons, hk]
              rw [hcnt, List.count_cons]
              by_cases hk : k0 = k <;> simp [hk] <;> omega
          · -- liquidation failed without the marker; refresh happens
            split at h
            · cases h
            · obtain ⟨h1, h2, h3, h4, h5⟩ := ih _ _ _ _ _ _ h
              refine ⟨h1, fun hm => ?_, fun ha => ?_, fun hk hn => ?_, ?_⟩
              · rcases h2 hm with hx | hx
                · rcases List.mem_append.mp hx with hy | hy
                  · exact Or.inl hy
                  · rcases List.mem_cons.mp hy with hz | hz
                    · cases hz
                    · rcases List.mem_cons.mp hz with hw | hw
                      · cases hw
                      · cases hw
                · exact Or.inr hx
              · rcases h3 ha with hx | hx
                · rcases List.mem_append.mp hx with hy | hy
                  · exact Or.inl hy
                  · have hks : k = k0 := by
                      rcases List.mem_cons.mp hy with hz | hz
                      · exact (SweepEv.attempt.injEq _ _).mp hz
                      · rcases List.mem_cons.mp hz with hw | hw
                        · cases hw
                        · cases hw
                    exact Or.inr (by simp [hks])
                · exact Or.inr (List.mem_cons_of_mem _ hx)
              · have hne : k0 ≠ k := fun he => hk (by simp [he])
                exact h4 (fun hz => hk (List.mem_cons_of_mem _ hz))
                  (by rw [store_lookup_insert_ne _ _ _ _ hne]; exact hn)
              · refine le_trans h5 ?_
                have hcnt : attemptCount k (tr ++ [SweepEv.attempt k0, SweepEv.refresh k0]) =
                    attemptCount k tr + (if k0 = k then 1 else 0) := by
                  unfold attemptCount
                  rw [List.countP_append]
                  by_cases hk : k0 = k <;> simp [List.countP_cons, hk]
                rw [hcnt, List.count_cons]
                by_cases hk : k0 = k <;> simp [hk] <;> omega
        · -- liquidation succeeded; refresh happens
          split at h
          · cases h
          · obtain ⟨h1, h2, h3, h4, h5⟩ := ih _ _ _ _ _ _ h
            refine ⟨h1, fun hm => ?_, fun ha => ?_, fun hk hn => ?_, ?_⟩
            · rcases h2 hm with hx | hx
              · rcases List.mem_append.mp hx with hy | hy
                · exact Or.inl hy
                · rcases List.mem_cons.mp hy with hz | hz
                  · cases hz
                  · rcases List.mem_cons.mp hz with hw | hw
                    · cases hw
                    · cases hw
              · exact Or.inr hx
            · rcases h3 ha with hx | hx
              · rcases List.mem_append.mp hx with hy | hy
                · exact Or.inl hy
                · have hks : k = k0 := by
                    rcases List.mem_cons.mp hy with hz | hz
                    · exact (SweepEv.attempt.injEq _ _).mp hz
                    · rcases List.mem_cons.mp hz with hw | hw
                      · cases hw
                      · cases hw
                  exact Or.inr (by simp [hks])
              · exact Or.inr (List.mem_cons_of_mem _ hx)
            · have hne : k0 ≠ k := fun he => hk (by simp [he])
              exact h4 (fun hz => hk (List.mem_cons_of_mem _ hz))
                (by rw [store_lookup_insert_ne _ _ _ _ hne]; exact hn)
            · refine le_trans h5 ?_
              have hcnt : attemptCount k (tr ++ [SweepEv.attempt k0, SweepEv.refresh k0]) =
                  attemptCount k tr + (if k0 = k then 1 else 0) := by
                unfold attemptCount
                rw [List.countP_append]
                by_cases hk : k0 = k <;> simp [List.countP_cons, hk]
              rw [hcnt, List.count_cons]
              by_cases hk : k0 = k <;> simp [hk] <;> omega

theorem loop_completes (env : SweepEnv)
    (hl : ∀ p, ∃ b, env.is_liquidable p = .ok b)
    (hu : ∀ p, ∃ q, env.update p = .ok q) (ks : List ℕ) :
    ∀ s dels tr, ∃ r, monitor_positions_loop env ks s dels tr = .ok r := by
  induction ks with
  | nil => intro s dels tr; exact ⟨_, rfl⟩
  | cons k ks ih =>
    intro s dels tr
    rw [monitor_positions_loop]
    split
    · exact ih _ _ _
    · next p hp =>
      split
      · next e heq =>
        obtain ⟨b, hb⟩ := hl p
        rw [hb] at heq
        cases heq
      · exact ih _ _ _
      · split
        · split
          · exact ih _ _ _
          · split
            · next e2 heq =>
              obtain ⟨q, hq⟩ := hu p
              rw [hq] at heq
              cases heq
            · exact ih _ _ _
        · split
          · next e2 heq =>
            obtain ⟨q, hq⟩ := hu p
            rw [hq] at heq
            cases heq
          · exact ih _ _ _

/-- C8: in every completed evaluation sweep in which a liquidation attempt
fails with the "not-undercollateralized" marker, that position's key is absent
from the store once the sweep completes; at most one attempt is made on the
key during the sweep; any later sweep run while the key is absent attempts it
zero times and leaves it absent (until the update channel re-inserts it); and
liquidation failures never make a sweep return an error (only
`is_liquidable`/`update` failures can). -/
theorem marker_failure_removes_position (env : SweepEnv) (s s' : Store)
    (tr : List SweepEv) (k : ℕ)
    (hnd : (store_keys s).Nodup)
    (hok : monitor_positions_liquidability env s = .ok (s', tr))
    (hm : SweepEv.attemptFailedMarker k ∈ tr) :
    store_lookup s' k = none ∧ attemptCount k tr ≤ 1 ∧
    (∀ env2 s2 s2' tr2, store_lookup s2 k = none →
        monitor_positions_liquidability env2 s2 = .ok (s2', tr2) →
        SweepEv.attempt k ∉ tr2 ∧ store_lookup s2' k = none) ∧
    (∀ env2 s2, (∀ p, ∃ b, env2.is_liquidable p = .ok b) →
        (∀ p, ∃ q, env2.update p = .ok q) →
        ∃ r, monitor_positions_liquidability env2 s2 = .ok r) := by
  have later : ∀ env2 s2 s2' tr2, store_lookup s2 k = none →
      monitor_positions_liquidability env2 s2 = .ok (s2', tr2) →
      SweepEv.attempt k ∉ tr2 ∧ store_lookup s2' k = none := by
    intro env2 s2 s2' tr2 h2none h2ok
    unfold monitor_positions_liquidability at h2ok
    split at h2ok
    · cases h2ok
      exact ⟨by simp, h2none⟩
    · split at h2ok
      · cases h2ok
      · next s2'' dels2 tr2'' hrun2 =>
        cases h2ok
        have hknot : k ∉ store_keys s2 := not_mem_keys_of_lookup_none _ _ h2none
        obtain ⟨f1, f2, f3, f4, f5⟩ := loop_facts env2 k (store_keys s2) _ _ _ _ _ _ hrun2
        constructor
        · intro ha
          rcases f3 ha with hx | hx
          · cases hx
          · exact hknot hx
        · exact store_lookup_foldl_remove_none dels2 _ _ (f4 hknot h2none)
  have completes : ∀ env2 s2, (∀ p, ∃ b, env2.is_liquidable p = .ok b) →
      (∀ p, ∃ q, env2.update p = .ok q) →
      ∃ r, monitor_positions_liquidability env2 s2 = .ok r := by
    intro env2 s2 hlq hup
    unfold monitor_positions_liquidability
    split
    · exact ⟨_, rfl⟩
    · obtain ⟨r, hr⟩ := loop_completes env2 hlq hup (store_keys s2) s2 [] []
      obtain ⟨a, b, c⟩ := r
      rw [hr]
      exact ⟨_, rfl⟩
  unfold monitor_positions_liquidability at hok
  split at hok
  · cases hok
    cases hm
  · split at hok
    · cases hok
    · next s'' dels tr'' hrun =>
      cases hok
      obtain ⟨f1, f2, f3, f4, f5⟩ := loop_facts env k (store_keys s) _ _ _ _ _ _ hrun
      refine ⟨?_, ?_, later, completes⟩
      · rcases f2 hm with hx | hx
        · cases hx
        · exact store_lookup_foldl_remove_mem dels _ _ hx
      · have hc : (store_keys s).count k ≤ 1 :=
          List.nodup_iff_count_le_one.mp hnd k
        have h0 : attemptCount k ([] : List SweepEv) = 0 := rfl
        omega

/-- C8 witness: the marker-failure theorem at a concrete sweep of one
position whose liquidation fails with the marker message: afterwards the key
is gone and the trace held a single attempt. -/
theorem marker_failure_removes_position_witness :
    store_lookup ([] : Store) 1 = none ∧
    attemptCount 1 [SweepEv.attempt 1, SweepEv.attemptFailedMarker 1] ≤ 1 := by
  have h := marker_failure_removes_position envMarker [(1, ⟨1, false⟩)] []
    [SweepEv.attempt 1, SweepEv.attemptFailedMarker 1] 1 (by decide) rfl (by decide)
  exact ⟨h.1, h.2.1⟩

theorem bitlenFuel_correct : ∀ f n, 1 ≤ n → n ≤ f →
    2 ^ (bitlenFuel f n - 1) ≤ n ∧ n < 2 ^ bitlenFuel f n ∧ 1 ≤ bitlenFuel f n := by
  intro f
  induction f with
  | zero => intro n h1 h2; omega
  | succ f ih =>
    intro n h1 h2
    rw [bitlenFuel, if_neg (by omega)]
    by_cases hn : n = 1
    · subst hn
      have hz : bitlenFuel f (1 / 2) = 0 := by
        cases f <;> rfl
      rw [hz]
      norm_num
    · have h2' : 2 ≤ n := by omega
      obtain ⟨ha, hb, hc⟩ := ih (n / 2) (by omega) (by omega)
      set b := bitlenFuel f (n / 2) with hbdef
      refine ⟨?_, ?_, by omega⟩
      · have he : 2 ^ (b + 1 - 1) = 2 * 2 ^ (b - 1) := by
          rw [Nat.add_sub_cancel]
          conv_lhs => rw [show b = b - 1 + 1 by omega]
          rw [pow_succ]
          ring
        rw [he]
        omega
      · have he : 2 ^ (b + 1) = 2 * 2 ^ b := by
          rw [pow_succ]
          ring
        rw [he]
        omega

theorem bitlen_correct (n : ℕ) (h : 1 ≤ n) :
    2 ^ (bitlen n - 1) ≤ n ∧ n < 2 ^ bitlen n ∧ 1 ≤ bitlen n :=
  bitlenFuel_correct n n h le_rfl

theorem bitlen_eq_of_bounds (n c : ℕ) (hc : 1 ≤ c) (h1 : 2 ^ (c - 1) ≤ n)
    (h2 : n < 2 ^ c) : bitlen n = c := by
  have hn : 1 ≤ n := le_trans (Nat.one_le_two_pow) h1
  obtain ⟨a, b, c1⟩ := bitlen_correct n hn
  by_contra hne
  rcases lt_or_gt_of_ne hne with hlt | hgt
  · have : 2 ^ bitlen n ≤ 2 ^ (c - 1) := Nat.pow_le_pow_right (by norm_num) (by omega)
    omega
  · have : 2 ^ c ≤ 2 ^ (bitlen n - 1) := Nat.pow_le_pow_right (by norm_num) (by omega)
    omega

theorem bitlen_mul_pow2 (n t : ℕ) (h : 1 ≤ n) : bitlen (n * 2 ^ t) = bitlen n + t := by
  obtain ⟨a, b, c⟩ := bitlen_correct n h
  apply bitlen_eq_of_bounds _ _ (by omega)
  · have he : 2 ^ (bitlen n + t - 1) = 2 ^ (bitlen n - 1) * 2 ^ t := by
      rw [← pow_add]
      congr 1
      omega
    rw [he]
    exact Nat.mul_le_mul_right _ a
  · rw [pow_add]
    exact Nat.mul_lt_mul_of_lt_of_le b (le_refl _) (by positivity)

theorem bitlen_one : bitlen 1 = 1 := rfl

theorem bitlen_le_of_lt_pow (n c : ℕ) (hn : 1 ≤ n) (h : n < 2 ^ c) : bitlen n ≤ c := by
  obtain ⟨a, b, c1⟩ := bitlen_correct n hn
  by_contra hx
  have : 2 ^ c ≤ 2 ^ (bitlen n - 1) := Nat.pow_le_pow_right (by norm_num) (by omega)
  omega

theorem bitlen_ge_of_le (n c : ℕ) (h : 2 ^ c ≤ n) : c + 1 ≤ bitlen n := by
  have hn : 1 ≤ n := le_trans (Nat.one_le_two_pow) h
  obtain ⟨a, b, c1⟩ := bitlen_correct n hn
  by_contra hx
  have : 2 ^ bitlen n ≤ 2 ^ c := Nat.pow_le_pow_right (by norm_num) (by omega)
  omega

theorem roundCore_exact (c dh : ℕ) (e : ℤ) (hdh : 1 ≤ dh) (hbc : bitlen c = 53) :
    roundCore (c * 2 ^ 2 * dh) dh e = ⟨c, e + 2⟩ := by
  have hc1 : 1 ≤ c := by
    by_contra hx
    have hc0 : c = 0 := by omega
    subst hc0
    simp [bitlen, bitlenFuel] at hbc
  have hq : c * 2 ^ 2 * dh / dh = c * 2 ^ 2 := Nat.mul_div_cancel _ (by omega)
  have hr : c * 2 ^ 2 * dh % dh = 0 := Nat.mul_mod_left _ _
  have hbq : bitlen (c * 2 ^ 2) = 55 := by
    rw [bitlen_mul_pow2 c 2 hc1, hbc]
  unfold roundCore
  simp only [hq, hr, hbq]
  have hs : (55 : ℕ) - 53 = 2 := by norm_num
  rw [hs]
  have hkeep : c * 2 ^ 2 / 2 ^ 2 = c := Nat.mul_div_cancel _ (by norm_num)
  have hdrop : c * 2 ^ 2 % 2 ^ 2 = 0 := Nat.mul_mod_left _ _
  rw [hkeep, hdrop]
  rw [if_pos (by norm_num; omega)]
  norm_num

theorem roundF_exact (n t : ℕ) (e : ℤ) (h1 : 1 ≤ n) (h2 : n < 2 ^ 53) :
    roundF (n * 2 ^ t) 1 e =
      ⟨n * 2 ^ (53 - bitlen n), e + t + (bitlen n : ℤ) - 53⟩ := by
  obtain ⟨ha, hb, hc⟩ := bitlen_correct n h1
  have hble : bitlen n ≤ 53 := bitlen_le_of_lt_pow n 53 h1 h2
  have hbN : bitlen (n * 2 ^ t) = bitlen n + t := bitlen_mul_pow2 n t h1
  have hbc : bitlen (n * 2 ^ (53 - bitlen n)) = 53 := by
    rw [bitlen_mul_pow2 n (53 - bitlen n) h1]
    omega
  unfold roundF
  rw [if_neg (by push_neg; exact ⟨by positivity, one_ne_zero⟩)]
  dsimp only
  rw [bitlen_one, hbN]
  by_cases hcase : bitlen n + t ≤ 55
  · have hk1 : ((54 : ℤ) + ((1 : ℕ) : ℤ) - ((bitlen n + t : ℕ) : ℤ)).toNat =
        55 - (bitlen n + t) := by
      push_cast
      omega
    have hk2 : (-((54 : ℤ) + ((1 : ℕ) : ℤ) - ((bitlen n + t : ℕ) : ℤ))).toNat = 0 := by
      push_cast
      omega
    rw [hk1, hk2]
    have hnh : n * 2 ^ t * 2 ^ (55 - (bitlen n + t)) =
        n * 2 ^ (53 - bitlen n) * 2 ^ 2 * (1 * 2 ^ 0) := by
      rw [one_mul, pow_zero, mul_one, mul_assoc, mul_assoc, ← pow_add, ← pow_add]
      have hexp : t + (55 - (bitlen n + t)) = 53 - bitlen n + 2 := by omega
      rw [hexp]
    rw [hnh, roundCore_exact _ _ _ (by norm_num) hbc]
    congr 1
    push_cast
    omega
  · have hk1 : ((54 : ℤ) + ((1 : ℕ) : ℤ) - ((bitlen n + t : ℕ) : ℤ)).toNat = 0 := by
      push_cast
      omega
    have hk2 : (-((54 : ℤ) + ((1 : ℕ) : ℤ) - ((bitlen n + t : ℕ) : ℤ))).toNat =
        (bitlen n + t) - 55 := by
      push_cast
      omega
    rw [hk1, hk2]
    have hnh : n * 2 ^ t * 2 ^ 0 =
        n * 2 ^ (53 - bitlen n) * 2 ^ 2 * (1 * 2 ^ (bitlen n + t - 55)) := by
      rw [pow_zero, mul_one, one_mul, mul_assoc, mul_assoc, ← pow_add, ← pow_add]
      have hexp : 53 - bitlen n + (2 + (bitlen n + t - 55)) = t := by omega
      rw [hexp]
    rw [hnh, roundCore_exact _ _ _ (by simpa using Nat.one_le_two_pow) hbc]
    congr 1
    push_cast
    omega

theorem roundF_div_self (m : ℕ) (e : ℤ) (hm : 1 ≤ m) :
    roundF m m e = ⟨2 ^ 52, e - 52⟩ := by
  have hb52 : bitlen ((2 : ℕ) ^ 52) = 53 := by
    have h1 : (2 : ℕ) ^ 52 = 1 * 2 ^ 52 := by ring
    rw [h1, bitlen_mul_pow2 1 52 le_rfl, bitlen_one]
  unfold roundF
  rw [if_neg (by push_neg; omega)]
  dsimp only
  have hk1 : ((54 : ℤ) + ((bitlen m : ℕ) : ℤ) - ((bitlen m : ℕ) : ℤ)).toNat = 54 := by
    omega
  have hk2 : (-((54 : ℤ) + ((bitlen m : ℕ) : ℤ) - ((bitlen m : ℕ) : ℤ))).toNat = 0 := by
    omega
  rw [hk1, hk2]
  have hnh : m * 2 ^ 54 = 2 ^ 52 * 2 ^ 2 * (m * 2 ^ 0) := by ring
  rw [hnh, roundCore_exact _ _ _ (by simpa using hm) hb52]
  congr 1
  omega

theorem roundCore_ge (nh dh : ℕ) (e : ℤ) (hq : 2 ^ 53 ≤ nh / dh) :
    2 ^ 52 ≤ (roundCore nh dh e).m := by
  have hq1 : 1 ≤ nh / dh := le_trans Nat.one_le_two_pow hq
  obtain ⟨ha, hb, hc⟩ := bitlen_correct (nh / dh) hq1
  have hbq : 54 ≤ bitlen (nh / dh) := by
    have := bitlen_ge_of_le (nh / dh) 53 hq
    omega
  have hkeep : 2 ^ 52 ≤ nh / dh / 2 ^ (bitlen (nh / dh) - 53) := by
    have h1 : 2 ^ (bitlen (nh / dh) - 1) / 2 ^ (bitlen (nh / dh) - 53) ≤
        nh / dh / 2 ^ (bitlen (nh / dh) - 53) := Nat.div_le_div_right ha
    have h2 : (2 : ℕ) ^ (bitlen (nh / dh) - 1) / 2 ^ (bitlen (nh / dh) - 53) = 2 ^ 52 := by
      rw [Nat.pow_div (by omega) (by norm_num)]
      congr 1
      omega
    omega
  unfold roundCore
  dsimp only
  split
  · exact hkeep
  · split
    · omega
    · split
      · exact hkeep
      · omega

theorem roundF_ge (num den : ℕ) (e : ℤ) (hn : 1 ≤ num) (hd : 1 ≤ den) :
    2 ^ 52 ≤ (roundF num den e).m := by
  obtain ⟨na, nb, nc⟩ := bitlen_correct num hn
  obtain ⟨da, db, dc⟩ := bitlen_correct den hd
  unfold roundF
  rw [if_neg (by push_neg; omega)]
  dsimp only
  apply roundCore_ge
  rw [Nat.le_div_iff_mul_le (by positivity)]
  by_cases hcase : (0 : ℤ) ≤ 54 + ((bitlen den : ℕ) : ℤ) - ((bitlen num : ℕ) : ℤ)
  · have hk1 : ((54 : ℤ) + ((bitlen den : ℕ) : ℤ) - ((bitlen num : ℕ) : ℤ)).toNat =
        54 + bitlen den - bitlen num := by omega
    have hk2 : (-((54 : ℤ) + ((bitlen den : ℕ) : ℤ) - ((bitlen num : ℕ) : ℤ))).toNat = 0 := by
      omega
    rw [hk1, hk2]
    calc 2 ^ 53 * (den * 2 ^ 0) = 2 ^ 53 * den := by ring
    _ ≤ 2 ^ 53 * 2 ^ bitlen den := Nat.mul_le_mul_left _ (le_of_lt db)
    _ = 2 ^ (53 + bitlen den) := (pow_add 2 53 (bitlen den)).symm
    _ ≤ 2 ^ (bitlen num - 1) * 2 ^ (54 + bitlen den - bitlen num) := by
        rw [← pow_add]
        apply Nat.pow_le_pow_right (by norm_num)
        omega
    _ ≤ num * 2 ^ (54 + bitlen den - bitlen num) := Nat.mul_le_mul_right _ na
  · have hk1 : ((54 : ℤ) + ((bitlen den : ℕ) : ℤ) - ((bitlen num : ℕ) : ℤ)).toNat = 0 := by
      omega
    have hk2 : (-((54 : ℤ) + ((bitlen den : ℕ) : ℤ) - ((bitlen num : ℕ) : ℤ))).toNat =
        bitlen num - 54 - bitlen den := by omega
    rw [hk1, hk2]
    calc 2 ^ 53 * (den * 2 ^ (bitlen num - 54 - bitlen den))
        ≤ 2 ^ 53 * (2 ^ bitlen den * 2 ^ (bitlen num - 54 - bitlen den)) :=
          Nat.mul_le_mul_left _ (Nat.mul_le_mul_right _ (le_of_lt db))
    _ = 2 ^ (53 + (bitlen den + (bitlen num - 54 - bitlen den))) := by
        rw [← pow_add, ← pow_add]
    _ ≤ 2 ^ (bitlen num - 1) := by
        apply Nat.pow_le_pow_right (by norm_num)
        omega
    _ ≤ num * 2 ^ 0 := by
        rw [pow_zero, mul_one]
        exact na

/-- C1 counterexample: with the reference-score query returning no record the
claimant's own score is indeed used, but the computed share does NOT equal the
total proceeds for every decodable amount: for the decodable amount
`(low = 0, high = 1)` (that is, `2^128`) the constructed share has high limb
hard-coded to `0`, so it cannot equal the total. -/
theorem fallback_share_not_total_counterexample :
    referenceScore none 40 = 40 ∧
    parse_liquidation_event 101 3 [⟨3, [101], [9, 0, 1]⟩] = some (9, ⟨0, 1⟩) ∧
    (compute_shares ⟨0, 1⟩ 40 (referenceScore none 40)).1 ≠ U256.mk 0 1 := by
  refine ⟨rfl, by decide, ?_⟩
  intro h
  have h0 : (compute_shares ⟨0, 1⟩ 40 (referenceScore none 40)).1.high = 0 := rfl
  rw [h] at h0
  exact one_ne_zero h0

/-- C1 amended: if the reference-score query returns no record, the claimant's
own (nonzero) score is used as the reference score, making the floating-point
proportion exactly `1.0`; the computed share then equals the total proceeds
whenever the proceeds fit exactly in a double — high limb `0` and low limb
below `2^53`.  (For larger amounts the share differs: its high limb is always
`0` and the `f64` round-trip is lossy.) -/
theorem fallback_share_exact (total_earnings : U256) (score : ℕ)
    (hh : total_earnings.high = 0) (hl : total_earnings.low < 2 ^ 53)
    (hs : 1 ≤ score) :
    referenceScore none score = score ∧
    (compute_shares total_earnings score (referenceScore none score)).1 = total_earnings := by
  obtain ⟨L, H⟩ := total_earnings
  change H = 0 at hh
  change L < 2 ^ 53 at hl
  subst hh
  refine ⟨rfl, ?_⟩
  have hm1 : 1 ≤ (natToF score).m :=
    le_trans (by norm_num) (roundF_ge score 1 0 hs le_rfl)
  have hprop : divF (natToF score) (natToF score) = ⟨2 ^ 52, -52⟩ := by
    unfold divF
    rw [roundF_div_self _ _ hm1]
    congr 1
    omega
  by_cases hL : L = 0
  · subst hL
    show U256.mk (f64toU128 (mulF (addF (natToF 0) (mulF (natToF 0) two128F))
      (divF (natToF score) (natToF score)))) 0 = U256.mk 0 0
    rw [hprop]
    rfl
  · have hL1 : 1 ≤ L := by omega
    obtain ⟨la, lb, lc⟩ := bitlen_correct L hL1
    have hble : bitlen L ≤ 53 := bitlen_le_of_lt_pow L 53 hL1 hl
    have hnat : natToF L = ⟨L * 2 ^ (53 - bitlen L), (bitlen L : ℤ) - 53⟩ := by
      unfold natToF
      have hx := roundF_exact L 0 0 hL1 hl
      rw [pow_zero, mul_one] at hx
      rw [hx]
      congr 1
      omega
    have hbM : bitlen (L * 2 ^ (53 - bitlen L)) = 53 := by
      rw [bitlen_mul_pow2 L _ hL1]
      omega
    have hMpos : 1 ≤ L * 2 ^ (53 - bitlen L) :=
      Nat.mul_pos (by omega) (by positivity)
    have hM52 : L * 2 ^ (53 - bitlen L) < 2 ^ 53 := by
      obtain ⟨ma, mb, mc⟩ := bitlen_correct (L * 2 ^ (53 - bitlen L)) hMpos
      rw [hbM] at mb
      exact mb
    have haddf : addF ⟨L * 2 ^ (53 - bitlen L), (bitlen L : ℤ) - 53⟩ ⟨0, 0⟩ =
        ⟨L * 2 ^ (53 - bitlen L), (bitlen L : ℤ) - 53⟩ := by
      unfold addF
      dsimp only
      have hmin : min ((bitlen L : ℤ) - 53) 0 = (bitlen L : ℤ) - 53 := by omega
      rw [hmin]
      have ht1 : (((bitlen L : ℤ) - 53) - ((bitlen L : ℤ) - 53)).toNat = 0 := by omega
      have ht2 : ((0 : ℤ) - ((bitlen L : ℤ) - 53)).toNat = 53 - bitlen L := by omega
      rw [ht1, ht2]
      have hnum : L * 2 ^ (53 - bitlen L) * 2 ^ 0 + 0 * 2 ^ (53 - bitlen L) =
          L * 2 ^ (53 - bitlen L) * 2 ^ 0 := by ring
      rw [hnum]
      rw [roundF_exact _ 0 _ hMpos hM52, hbM]
      simp only [F.mk.injEq]
      constructor
      · norm_num
      · omega
    have hmulf : mulF ⟨L * 2 ^ (53 - bitlen L), (bitlen L : ℤ) - 53⟩ ⟨2 ^ 52, -52⟩ =
        ⟨L * 2 ^ (53 - bitlen L), (bitlen L : ℤ) - 53⟩ := by
      unfold mulF
      dsimp only
      rw [roundF_exact _ 52 _ hMpos hM52, hbM]
      simp only [F.mk.injEq]
      constructor
      · norm_num
      · omega
    have hcast : f64toU128 ⟨L * 2 ^ (53 - bitlen L), (bitlen L : ℤ) - 53⟩ = L := by
      unfold f64toU128
      dsimp only
      by_cases hbl53 : bitlen L = 53
      · rw [if_pos (by omega)]
        have h0 : (((bitlen L : ℤ) - 53)).toNat = 0 := by omega
        rw [h0, hbl53]
        norm_num
        omega
      · rw [if_neg (by omega)]
        have h1 : (-((bitlen L : ℤ) - 53)).toNat = 53 - bitlen L := by omega
        rw [h1]
        rw [Nat.mul_div_cancel _ (by positivity)]
        have : L ≤ 2 ^ 128 - 1 := by omega
        omega
    show U256.mk (f64toU128 (mulF (addF (natToF L) (mulF (natToF 0) two128F))
      (divF (natToF score) (natToF score)))) 0 = U256.mk L 0
    rw [hnat, show mulF (natToF 0) two128F = (⟨0, 0⟩ : F) from rfl, haddf, hprop,
      hmulf, hcast]

/-- C1 witness: the amended fallback theorem at proceeds `(low = 1000,
high = 0)` and score `40`: with no reference record the share is the full
`1000`. -/
theorem fallback_share_exact_witness :
    referenceScore none 40 = 40 ∧
    (compute_shares ⟨1000, 0⟩ 40 (referenceScore none 40)).1 = U256.mk 1000 0 :=
  fallback_share_exact ⟨1000, 0⟩ 40 rfl (by norm_num) (by norm_num)
